import Mathlib

/-!
Verification development for the pdf-scanner repository.

The pipeline under study lives in `src/worker/index.js` (the polling worker:
`extractMetadata`, `processPDF`, `pollForPendingDocuments`) and in
`src/src/app/api/documents/route.ts` (the ingestion entry point `POST` and the
query endpoint `GET`, in two variants: a Supabase-backed one and an in-memory
prototype).  Strings are modelled as Lean `String`/`List Char`, timestamps as
`Nat`, database rows as structures, and the effectful steps (download, OCR)
as explicit parameters describing their outcome.
-/

namespace PdfScanner

/-! ### Character classes of the JavaScript regexes

`\d` (no `u` flag) is exactly ASCII `0-9`; `\s` is the ECMAScript WhiteSpace
and LineTerminator characters; `[A-Za-z]` is ASCII letters.  Case-insensitive
matching of an ASCII letter (no `u` flag) matches exactly its two cases. -/

def isDigitC (c : Char) : Bool :=
  48 ≤ c.toNat && c.toNat ≤ 57

def jsWhitespace (c : Char) : Bool :=
  let n := c.toNat
  n = 9 || n = 10 || n = 11 || n = 12 || n = 13 || n = 32 ||
  n = 160 || n = 5760 || (8192 ≤ n && n ≤ 8202) ||
  n = 8232 || n = 8233 || n = 8239 || n = 8287 || n = 12288 || n = 65279

def isAsciiLetter (c : Char) : Bool :=
  (65 ≤ c.toNat && c.toNat ≤ 90) || (97 ≤ c.toNat && c.toNat ≤ 122)

/-- Case-insensitive match of one pattern letter (given in lower case). -/
def ciIs (c target : Char) : Bool :=
  c = target || c = target.toUpper

/-- The class `[:\s]` used after `#` and after `Formula ID` / before a name. -/
def sepClass (c : Char) : Bool :=
  c = ':' || jsWhitespace c

/-- JS `String.prototype.trim`: strip `\s` characters from both ends. -/
def jsTrim (s : List Char) : List Char :=
  ((s.dropWhile jsWhitespace).reverse.dropWhile jsWhitespace).reverse

/-! ### `extractMetadata` (src/worker/index.js lines 21-48; identical code in
src/src/app/api/documents/route.ts lines 7-38) -/

/-- One attempt of `/Job\s*#[:\s]*(\d+)/i` anchored at the head of `cs`:
on success returns the whole match string and the remainder of the input
after the match (the `g` flag resumes scanning there). -/
def jobMatchAt (cs : List Char) : Option (List Char × List Char) :=
  match cs with
  | c1 :: c2 :: c3 :: rest =>
    if ciIs c1 'j' && ciIs c2 'o' && ciIs c3 'b' then
      let ws := rest.takeWhile jsWhitespace
      match rest.dropWhile jsWhitespace with
      | hash :: rest2 =>
        if hash = '#' then
          let sep := rest2.takeWhile sepClass
          let rest3 := rest2.dropWhile sepClass
          let digits := rest3.takeWhile isDigitC
          if digits.isEmpty then none
          else some (c1 :: c2 :: c3 :: (ws ++ '#' :: (sep ++ digits)),
                     rest3.dropWhile isDigitC)
        else none
      | [] => none
    else none
  | _ => none

/-- The global scan of `text.match(/Job\s*#[:\s]*(\d+)/gi)`: leftmost match
first, resuming after each match.  `fuel` bounds the recursion; it is
initialised with the length of the scanned list, which suffices because every
match consumes at least one character. -/
def scanJobAux : Nat → List Char → List (List Char)
  | 0, _ => []
  | _ + 1, [] => []
  | fuel + 1, c :: cs =>
    match jobMatchAt (c :: cs) with
    | some (m, rest) => m :: scanJobAux fuel rest
    | none => scanJobAux fuel cs

def jobMatchesOf (text : String) : List (List Char) :=
  scanJobAux text.data.length text.data

/-- `m.match(/(\d+)/)?.[1]`: the first maximal digit run of `m`, if any. -/
def firstDigitRun (m : List Char) : Option String :=
  let rest := m.dropWhile (fun c => !isDigitC c)
  if rest.isEmpty then none else some (String.mk (rest.takeWhile isDigitC))

/-- Lines 29-33 of the worker: collect all `Job #` matches, re-extract each
match's digit run, drop falsy entries, and keep the first (`numbers[0] || null`). -/
def jobNumberOf (text : String) : Option String :=
  let jobMatches := jobMatchesOf text
  if jobMatches.length > 0 then
    let numbers := ((jobMatches.map firstDigitRun).filterMap id).filter
      (fun s => s ≠ "")
    match numbers.head? with
    | some s => if s = "" then none else some s
    | none => none
  else none

/-- One attempt of `/Formula\s*ID[:\s]*(\d+)/i` anchored at the head of `cs`:
returns the digit capture. -/
def formulaMatchAt (cs : List Char) : Option String :=
  match cs with
  | c1 :: c2 :: c3 :: c4 :: c5 :: c6 :: c7 :: rest =>
    if ciIs c1 'f' && ciIs c2 'o' && ciIs c3 'r' && ciIs c4 'm' &&
       ciIs c5 'u' && ciIs c6 'l' && ciIs c7 'a' then
      let rest1 := rest.dropWhile jsWhitespace
      match rest1 with
      | c8 :: c9 :: rest2 =>
        if ciIs c8 'i' && ciIs c9 'd' then
          let rest3 := rest2.dropWhile sepClass
          let digits := rest3.takeWhile isDigitC
          if digits.isEmpty then none else some (String.mk digits)
        else none
      | _ => none
    else none
  | _ => none

/-- Leftmost match of `/Formula\s*ID[:\s]*(\d+)/i` (lines 36-39). -/
def findFormula : List Char → Option String
  | [] => none
  | c :: cs =>
    match formulaMatchAt (c :: cs) with
    | some d => some d
    | none => findFormula cs

def formulaIdOf (text : String) : Option String :=
  findFormula text.data

/-- The character class `[A-Za-z0-9%\s]` of the product-name capture. -/
def inNameClass (c : Char) : Bool :=
  isAsciiLetter c || isDigitC c || c = '%' || jsWhitespace c

/-- Case-insensitive test that `cs` starts with the given (lower-case) word. -/
def ciWordAt : List Char → List Char → Bool
  | [], _ => true
  | _ :: _, [] => false
  | w :: ws, c :: cs => ciIs c w && ciWordAt ws cs

/-- The terminator `(?:\n|Gallons|Pounds)` tested at the head of `cs`. -/
def termAt (cs : List Char) : Bool :=
  (match cs with | '\n' :: _ => true | _ => false) ||
  ciWordAt "gallons".data cs || ciWordAt "pounds".data cs

/-- The lazy capture `([A-Za-z0-9%\s]+?)` followed by the terminator:
consume one class character at a time (shortest first) and stop at the first
point where the terminator matches.  Returns the captured characters. -/
def lazyCapture (acc : List Char) : List Char → Option (List Char)
  | [] => none
  | c :: rest =>
    if inNameClass c then
      if termAt rest then some (acc ++ [c])
      else lazyCapture (acc ++ [c]) rest
    else none

/-- Backtracking of the greedy separator `[:\s]+`: try consuming `n, n-1, …, 1`
separator characters (longest first), each time running the lazy capture on
the remainder. -/
def sepTryFrom (cs : List Char) : Nat → Option (List Char)
  | 0 => none
  | n + 1 =>
    match lazyCapture [] (cs.drop (n + 1)) with
    | some cap => some cap
    | none => sepTryFrom cs n

/-- One attempt of `/Name[:\s]+([A-Za-z0-9%\s]+?)(?:\n|Gallons|Pounds)/i`
anchored at the head of `cs`: returns the (untrimmed) capture. -/
def nameMatchAt : List Char → Option (List Char)
  | c1 :: c2 :: c3 :: c4 :: rest =>
    if ciIs c1 'n' && ciIs c2 'a' && ciIs c3 'm' && ciIs c4 'e' then
      sepTryFrom rest (rest.takeWhile sepClass).length
    else none
  | _ => none

/-- Leftmost successful position of the product-name regex. -/
def findNameCapture : List Char → Option (List Char)
  | [] => none
  | c :: cs =>
    match nameMatchAt (c :: cs) with
    | some cap => some cap
    | none => findNameCapture cs

/-- Lines 42-45 of the worker: first match of the product-name regex,
capture trimmed. -/
def productNameOf (text : String) : Option String :=
  (findNameCapture text.data).map (fun cap => String.mk (jsTrim cap))

structure Metadata where
  jobNumber : Option String
  formulaId : Option String
  productName : Option String
deriving Repr, DecidableEq

/-- `extractMetadata` of src/worker/index.js (and, verbatim, of the two
route.ts variants). -/
def extractMetadata (text : String) : Metadata :=
  { jobNumber := jobNumberOf text
    formulaId := formulaIdOf text
    productName := productNameOf text }

/-! ### PDF text extraction (`processPDF`, src/worker/index.js lines 85-141)

The per-page direct extraction results (already space-joined and trimmed by
lines 95-98) are modelled as a list of strings, one per page, so that
`direct.length` is the page count.  The whole-document OCR fallback outcome is
an `Option String`: `some t` when `Tesseract.recognize` returned text `t`,
`none` when it threw (the `catch` on line 131 absorbs the error). -/

structure PageText where
  pageNum : Nat
  text : String
  needsOCR : Bool
deriving Repr, DecidableEq

/-- Lines 92-102: the per-page loop.  `thr` is the per-page `needsOCR`
threshold (50 in the source); it is a parameter so that the independence of
the output from this flag can be stated. -/
def mkPageTextsWith (thr : Nat) (direct : List String) : List PageText :=
  direct.enum.map (fun p => ⟨p.1 + 1, p.2, decide (p.2.length < thr)⟩)

def mkPageTexts (direct : List String) : List PageText :=
  mkPageTextsWith 50 direct

/-- Line 101: `totalTextLength` accumulated over the per-page loop. -/
def totalTextLength (direct : List String) : Nat :=
  (direct.map String.length).sum

/-- Lines 107-134: the whole-document OCR fallback.  Returns the final page
list together with a flag recording whether the OCR primitive was invoked. -/
def applyFallbackWith (thr : Nat) (direct : List String) (ocr : Option String) :
    List PageText × Bool :=
  let pageTexts := mkPageTextsWith thr direct
  let total := totalTextLength direct
  let pageCount := direct.length
  if total < 100 * pageCount then
    match ocr with
    | some t =>
      (if t.length > total then [⟨1, t, false⟩] else pageTexts, true)
    | none => (pageTexts, true)
  else (pageTexts, false)

def applyFallback (direct : List String) (ocr : Option String) :
    List PageText × Bool :=
  applyFallbackWith 50 direct ocr

def extractPagesWith (thr : Nat) (direct : List String) (ocr : Option String) :
    List PageText :=
  (applyFallbackWith thr direct ocr).1

def extractPages (direct : List String) (ocr : Option String) : List PageText :=
  (applyFallback direct ocr).1

/-- Lines 137-139: combine the pages with `--- Page N ---` markers, joined by
blank lines. -/
def combineText (pages : List PageText) : String :=
  String.intercalate "\n\n"
    (pages.map (fun p => "--- Page " ++ toString p.pageNum ++ " ---\n" ++ p.text))

/-! ### The document record and the worker's updates

The `pdf_documents` row (schema in the SQL setup file).  `uploaded_at` and
`processed_at` are modelled as naturals. -/

structure Document where
  id : Nat
  filename : String
  job_number : Option String
  formula_id : Option String
  product_name : Option String
  extracted_text : Option String
  file_path : Option String
  page_count : Nat
  processing_status : String
  processing_error : Option String
  uploaded_at : Nat
  processed_at : Option Nat
deriving Repr, DecidableEq

/-- The row inserted by the PDF branch of `POST` (route.ts lines 134-144):
status `pending`, `extracted_text` explicitly null, the remaining columns at
their schema defaults. -/
def pendingDoc (id : Nat) (filename filePath : String) (t : Nat) : Document :=
  { id := id
    filename := filename
    job_number := none
    formula_id := none
    product_name := none
    extracted_text := none
    file_path := some filePath
    page_count := 0
    processing_status := "pending"
    processing_error := none
    uploaded_at := t
    processed_at := none }

/-- The row inserted by the image branch of `POST` (route.ts lines 180-194):
OCR ran synchronously, metadata derived from its text, status `completed`. -/
def imageDoc (id : Nat) (filename ocrText : String) (t now : Nat) : Document :=
  let md := extractMetadata ocrText
  { id := id
    filename := filename
    job_number := md.jobNumber
    formula_id := md.formulaId
    product_name := md.productName
    extracted_text := some ocrText
    file_path := none
    page_count := 1
    processing_status := "completed"
    processing_error := none
    uploaded_at := t
    processed_at := some now }

/-- Lines 59-62 of the worker: the initial `processing` update. -/
def markProcessing (d : Document) : Document :=
  { d with processing_status := "processing" }

/-- The outcome of the effectful part of one `processPDF` run: either some
step before the per-page loop threw (download, file write, PDF load — `fail`
with the error message), or the PDF loaded and yielded per-page direct texts,
with `ocr` the fallback outcome should it run (`none` = the OCR primitive
threw). -/
inductive PDFInput where
  | fail (msg : String)
  | ok (direct : List String) (ocr : Option String)
deriving Repr, DecidableEq

/-- `processPDF` (lines 51-181) as a transformer of the document row; the
returned `Bool` records that removal of the local temp file was attempted
(lines 164 and 179: both the success and the failure branch attempt it). -/
def processPDFRun (d : Document) (input : PDFInput) (now : Nat) :
    Document × Bool :=
  let d1 := markProcessing d
  match input with
  | .fail msg =>
    ({ d1 with processing_status := "failed", processing_error := some msg },
     true)
  | .ok direct ocr =>
    let pageTexts := extractPages direct ocr
    let extractedText := combineText pageTexts
    let md := extractMetadata extractedText
    ({ d1 with
        extracted_text := some extractedText
        job_number := md.jobNumber
        formula_id := md.formulaId
        product_name := md.productName
        page_count := direct.length
        processing_status := "completed"
        processed_at := some now },
     true)

/-! ### Poll loop (`pollForPendingDocuments`, lines 184-209) -/

/-- The poll query: documents with status `pending`, ordered by `uploaded_at`
ascending, limited to 5. -/
def pollQuery (store : List Document) : List Document :=
  (((store.filter (fun d => d.processing_status == "pending")).mergeSort
      (fun a b => Nat.ble a.uploaded_at b.uploaded_at)).take 5)

/-- Processing one selected document inside the store: the worker's updates
go to the row with the matching id. -/
def runOnStore (store : List Document) (d : Document) (input : PDFInput)
    (now : Nat) : List Document :=
  store.map (fun x => if x.id = d.id then (processPDFRun x input now).1 else x)

/-- One iteration of `pollForPendingDocuments`: if the query erred, log and
return (no mutation); otherwise process the selected documents sequentially,
in order.  `inputs` gives each selected document's processing outcome. -/
def pollIteration (store : List Document)
    (queryResult : Except String (List Document))
    (inputs : Document → PDFInput) (now : Nat) : List Document :=
  match queryResult with
  | .error _ => store
  | .ok docs => docs.foldl (fun st d => runOnStore st d (inputs d) now) store

/-! ### Reachable document states

Documents are created by the ingestion entry point and mutated only by the
worker, which selects rows whose status is `pending`. -/

inductive Reachable : Document → Prop where
  | uploadPDF (id : Nat) (fn fp : String) (t : Nat) :
      Reachable (pendingDoc id fn fp t)
  | uploadImage (id : Nat) (fn text : String) (t now : Nat) :
      Reachable (imageDoc id fn text t now)
  | claim (d : Document) : Reachable d → d.processing_status = "pending" →
      Reachable (markProcessing d)
  | finish (d : Document) (input : PDFInput) (now : Nat) : Reachable d →
      d.processing_status = "pending" → Reachable (processPDFRun d input now).1

/-! ### The query endpoint `GET` (both variants of route.ts)

`String.prototype.includes` / SQL `ilike '%pat%'` are modelled with an
explicit substring test. -/

def lowerStr (s : String) : String :=
  String.mk (s.data.map Char.toLower)

def listStartsWith : List Char → List Char → Bool
  | _, [] => true
  | [], _ :: _ => false
  | c :: cs, p :: ps => c = p && listStartsWith cs ps

def listContains : List Char → List Char → Bool
  | [], pat => pat.isEmpty
  | c :: cs, pat => listStartsWith (c :: cs) pat || listContains cs pat

/-- JS `hay.includes(needle)`. -/
def jsIncludes (hay needle : String) : Bool :=
  listContains hay.data needle.data

/-- SQL `column ilike '%pat%'` on a nullable column: case-insensitive
substring match, false on NULL. -/
def ilikeContains (column : Option String) (pat : String) : Bool :=
  match column with
  | some t => jsIncludes (lowerStr t) (lowerStr pat)
  | none => false

/-- The Supabase-backed `GET` (route.ts lines 41-99): order by `uploaded_at`
descending, equality filters for `jobNumber`/`formulaId`/`status`, and
`ilike` of `extracted_text` against `%q%` (with `q` lower-cased by the
route). -/
def getSupabaseDocs (store : List Document)
    (q jobNumber formulaId status : Option String) : List Document :=
  let r0 := store.mergeSort (fun a b => Nat.ble b.uploaded_at a.uploaded_at)
  let r1 : List Document := match jobNumber with
    | some j => r0.filter (fun d => d.job_number == some j)
    | none => r0
  let r2 : List Document := match formulaId with
    | some f => r1.filter (fun d => d.formula_id == some f)
    | none => r1
  let r3 : List Document := match status with
    | some s => r2.filter (fun d => d.processing_status == s)
    | none => r2
  match q with
  | some qq => r3.filter (fun d => ilikeContains d.extracted_text (lowerStr qq))
  | none => r3

/-- A record of the in-memory prototype variant's `documents` map
(second half of route.ts). -/
structure MemDoc where
  id : Nat
  filename : String
  jobNumber : Option String
  formulaId : Option String
  productName : Option String
  extractedText : String
  uploadedAt : Nat
deriving Repr, DecidableEq

/-- The `q` filter of the in-memory `GET` (route.ts lines 301-307):
`extractedText`, `filename`, and (when present) `productName`, each
lower-cased, tested for the lower-cased query. -/
def memMatchesQ (query : String) : MemDoc → Bool := fun d =>
  jsIncludes (lowerStr d.extractedText) query ||
  jsIncludes (lowerStr d.filename) query ||
  (match d.productName with
   | some p => jsIncludes (lowerStr p) query
   | none => false)

/-- The in-memory `GET` (route.ts lines 284-316): filters, then sort by
`uploadedAt` descending. -/
def getMemDocs (docs : List MemDoc) (q jobNumber formulaId : Option String) :
    List MemDoc :=
  let r1 : List MemDoc := match jobNumber with
    | some j => docs.filter (fun d => d.jobNumber == some j)
    | none => docs
  let r2 : List MemDoc := match formulaId with
    | some f => r1.filter (fun d => d.formulaId == some f)
    | none => r1
  let r3 : List MemDoc := match q with
    | some qq => r2.filter (memMatchesQ (lowerStr qq))
    | none => r2
  r3.mergeSort (fun a b => Nat.ble b.uploadedAt a.uploadedAt)

/-! ### Claim-side definitions

These follow the wording of the specification sentences (for the refinement
claims about the metadata extractor and the query endpoint), to be compared
with the definitions above, which were translated from the source. -/

/-- Spec wording for `jobNumber` at one position: "Job", optional whitespace,
`#`, optional whitespace/colon, one or more digits; the numeric capture. -/
def jobCaptureAt (cs : List Char) : Option String :=
  match cs with
  | c1 :: c2 :: c3 :: rest =>
    if ciIs c1 'j' && ciIs c2 'o' && ciIs c3 'b' then
      match rest.dropWhile jsWhitespace with
      | hash :: rest2 =>
        if hash = '#' then
          let digits := (rest2.dropWhile sepClass).takeWhile isDigitC
          if digits.isEmpty then none else some (String.mk digits)
        else none
      | [] => none
    else none
  | _ => none

/-- Spec wording for `jobNumber`: the numeric capture of the first match in
document order, else null. -/
def specJobNumber : List Char → Option String
  | [] => none
  | c :: cs =>
    match jobCaptureAt (c :: cs) with
    | some d => some d
    | none => specJobNumber cs

/-- The claim's reading of the product-name separator: *optional*
whitespace/colon, i.e. the separator may also be empty (`n` may reach 0). -/
def claimSepTry (cs : List Char) : Nat → Option (List Char)
  | 0 => lazyCapture [] cs
  | n + 1 =>
    match lazyCapture [] (cs.drop (n + 1)) with
    | some cap => some cap
    | none => claimSepTry cs n

def claimNameAt : List Char → Option (List Char)
  | c1 :: c2 :: c3 :: c4 :: rest =>
    if ciIs c1 'n' && ciIs c2 'a' && ciIs c3 'm' && ciIs c4 'e' then
      claimSepTry rest (rest.takeWhile sepClass).length
    else none
  | _ => none

def claimFindName : List Char → Option (List Char)
  | [] => none
  | c :: cs =>
    match claimNameAt (c :: cs) with
    | some cap => some cap
    | none => claimFindName cs

/-- `productName` as claim C8 states it (separator optional). -/
def claimProductName (text : String) : Option String :=
  (claimFindName text.data).map (fun cap => String.mk (jsTrim cap))

/-- Spec wording of the lazy capture: the *shortest* non-empty prefix of the
region that consists of name-class characters and is followed by the
terminator. -/
def specLazy (cs : List Char) : Option (List Char) :=
  (List.range cs.length).findSome? (fun i =>
    if (cs.take (i + 1)).all inNameClass && termAt (cs.drop (i + 1)) then
      some (cs.take (i + 1))
    else none)

/-- Amended wording of the separator: one or more whitespace/colon
characters, longest first. -/
def amendedNameTail (cs : List Char) : Option (List Char) :=
  let maxSep := (cs.takeWhile sepClass).length
  (List.range maxSep).findSome? (fun i => specLazy (cs.drop (maxSep - i)))

def amendedNameAt : List Char → Option (List Char)
  | c1 :: c2 :: c3 :: c4 :: rest =>
    if ciIs c1 'n' && ciIs c2 'a' && ciIs c3 'm' && ciIs c4 'e' then
      amendedNameTail rest
    else none
  | _ => none

def amendedFindName : List Char → Option (List Char)
  | [] => none
  | c :: cs =>
    match amendedNameAt (c :: cs) with
    | some cap => some cap
    | none => amendedFindName cs

/-- `productName` as claim C8 reads after amendment: "Name", *one or more*
whitespace/colon characters, then the lazily-captured run terminated by a
newline or "Gallons" or "Pounds"; capture trimmed. -/
def amendedProductName (text : String) : Option String :=
  (amendedFindName text.data).map (fun cap => String.mk (jsTrim cap))

/-- Claim C9's match predicate for `q`: case-insensitive substring match
against extracted text, filename, and product name. -/
def specQMatches (q : String) (d : Document) : Bool :=
  ilikeContains d.extracted_text q ||
  jsIncludes (lowerStr d.filename) (lowerStr q) ||
  ilikeContains d.product_name q

/-! ### Helper lemmas -/

theorem intercalate_singleton (s a : String) : String.intercalate s [a] = a :=
  rfl

theorem mkPageTextsWith_map_text (thr : Nat) (direct : List String) :
    (mkPageTextsWith thr direct).map PageText.text = direct := by
  simp only [mkPageTextsWith, List.map_map]
  exact List.enum_map_snd direct

theorem combineText_mkPageTextsWith (thr₁ thr₂ : Nat) (direct : List String) :
    combineText (mkPageTextsWith thr₁ direct) =
    combineText (mkPageTextsWith thr₂ direct) := by
  simp only [combineText, mkPageTextsWith, List.map_map, Function.comp_def]

/-! ### Claim theorems for the extraction pipeline -/

/-- C1: for a PDF whose aggregate direct-extraction length is below
`100 × pageCount`, if the whole-document OCR fallback returns text strictly
longer than the aggregate, the combined `extractedText` is exactly the
fallback text behind a single `--- Page 1 ---` marker; otherwise the
per-page direct-extraction results are kept unchanged. -/
theorem fallback_replaces_iff_longer (direct : List String) (t : String)
    (h : totalTextLength direct < 100 * direct.length) :
    (t.length > totalTextLength direct →
      combineText (extractPages direct (some t)) = "--- Page 1 ---\n" ++ t) ∧
    (¬ t.length > totalTextLength direct →
      extractPages direct (some t) = mkPageTexts direct) := by
  constructor <;> intro hlen
  · simp only [extractPages, applyFallback, applyFallbackWith, if_pos h,
      if_pos hlen]
    rw [show combineText [⟨1, t, false⟩]
          = ("--- Page " ++ toString (1:Nat) ++ " ---\n") ++ t from rfl,
        show ("--- Page " ++ toString (1:Nat) ++ " ---\n") = "--- Page 1 ---\n" from rfl]
  · simp only [extractPages, applyFallback, applyFallbackWith, if_pos h,
      if_neg hlen, mkPageTexts]

theorem fallback_replaces_iff_longer_witness :
    (totalTextLength ["ab"] < 100 * (["ab"] : List String).length) ∧
    (combineText (extractPages ["ab"] (some "xyz")) = "--- Page 1 ---\n" ++ "xyz") ∧
    (extractPages ["ab"] (some "xy") = mkPageTexts ["ab"]) :=
  ⟨by decide,
   (fallback_replaces_iff_longer ["ab"] "xyz" (by decide)).1 (by decide),
   (fallback_replaces_iff_longer ["ab"] "xy" (by decide)).2 (by decide)⟩

/-- C2: the whole-document OCR fallback is attempted exactly when the
aggregate direct-extraction length is below `100 × pageCount`; at or above
the threshold it is never invoked and the page texts are the direct ones. -/
theorem fallback_iff_below_threshold (direct : List String)
    (ocr : Option String) :
    (100 * direct.length ≤ totalTextLength direct →
      (applyFallback direct ocr).2 = false ∧
      (applyFallback direct ocr).1.map PageText.text = direct) ∧
    ((applyFallback direct ocr).2 = true ↔
      totalTextLength direct < 100 * direct.length) := by
  by_cases h : totalTextLength direct < 100 * direct.length
  · refine ⟨fun hge => absurd h (by omega), ?_⟩
    simp only [applyFallback, applyFallbackWith, if_pos h]
    cases ocr <;> simp [h]
  · constructor
    · intro hge
      constructor
      · simp only [applyFallback, applyFallbackWith, if_neg h]
      · simp only [applyFallback, applyFallbackWith, if_neg h]
        exact mkPageTextsWith_map_text 50 direct
    · simp only [applyFallback, applyFallbackWith, if_neg h]
      simpa using h

set_option maxRecDepth 4000 in
theorem fallback_iff_below_threshold_witness :
    (100 * ([String.mk (List.replicate 200 'a')] : List String).length
       ≤ totalTextLength [String.mk (List.replicate 200 'a')]) ∧
    ((applyFallback [String.mk (List.replicate 200 'a')] (some "zz")).2 = false ∧
     (applyFallback [String.mk (List.replicate 200 'a')] (some "zz")).1.map PageText.text
       = [String.mk (List.replicate 200 'a')]) :=
  ⟨by decide,
   (fallback_iff_below_threshold [String.mk (List.replicate 200 'a')] (some "zz")).1
     (by decide)⟩

/-- C3: a failing whole-document OCR fallback is absorbed: the worker still
completes the document with the direct-extraction text. -/
theorem ocr_error_absorbed (d : Document) (direct : List String) (now : Nat)
    (h : totalTextLength direct < 100 * direct.length) :
    (processPDFRun d (.ok direct none) now).1.processing_status = "completed" ∧
    (processPDFRun d (.ok direct none) now).1.extracted_text
      = some (combineText (mkPageTexts direct)) := by
  have hext : extractPages direct none = mkPageTexts direct := by
    simp only [extractPages, applyFallback, applyFallbackWith, if_pos h,
      mkPageTexts]
  exact ⟨rfl, by simp [processPDFRun, hext]⟩

theorem ocr_error_absorbed_witness :
    (totalTextLength ["ab"] < 100 * (["ab"] : List String).length) ∧
    ((processPDFRun (pendingDoc 1 "f.pdf" "p" 0) (.ok ["ab"] none) 5).1.processing_status
       = "completed" ∧
     (processPDFRun (pendingDoc 1 "f.pdf" "p" 0) (.ok ["ab"] none) 5).1.extracted_text
       = some (combineText (mkPageTexts ["ab"]))) :=
  ⟨by decide, ocr_error_absorbed (pendingDoc 1 "f.pdf" "p" 0) ["ab"] 5 (by decide)⟩

/-- C4: any error during queued processing marks the document failed with
`processingError` set to the error message, leaves `extractedText` null, and
temp-file removal is attempted on the failure path just as on the success
path. -/
theorem worker_failure_path (d : Document) (msg : String) (now : Nat)
    (h : d.extracted_text = none) :
    (processPDFRun d (.fail msg) now).1.processing_status = "failed" ∧
    (processPDFRun d (.fail msg) now).1.processing_error = some msg ∧
    (processPDFRun d (.fail msg) now).1.extracted_text = none ∧
    (∀ input : PDFInput, (processPDFRun d input now).2 = true) := by
  refine ⟨rfl, rfl, ?_, ?_⟩
  · simpa [processPDFRun, markProcessing] using h
  · intro input
    cases input <;> rfl

theorem worker_failure_path_witness :
    ((pendingDoc 1 "f.pdf" "p" 0).extracted_text = none) ∧
    ((processPDFRun (pendingDoc 1 "f.pdf" "p" 0) (.fail "boom") 5).1.processing_status = "failed" ∧
     (processPDFRun (pendingDoc 1 "f.pdf" "p" 0) (.fail "boom") 5).1.processing_error = some "boom" ∧
     (processPDFRun (pendingDoc 1 "f.pdf" "p" 0) (.fail "boom") 5).1.extracted_text = none ∧
     (∀ input : PDFInput,
       (processPDFRun (pendingDoc 1 "f.pdf" "p" 0) input 5).2 = true)) :=
  ⟨rfl, worker_failure_path (pendingDoc 1 "f.pdf" "p" 0) "boom" 5 rfl⟩

/-- C10: the combined extracted text does not depend on the per-page
`needsOCR` flags: running the pipeline with any two classification
thresholds (the source uses 50) yields identical combined text, and the
source pipeline is the instance at threshold 50. -/
theorem combined_text_independent_of_needsOCR (thr₁ thr₂ : Nat)
    (direct : List String) (ocr : Option String) :
    combineText (extractPagesWith thr₁ direct ocr) =
      combineText (extractPagesWith thr₂ direct ocr) ∧
    extractPages direct ocr = extractPagesWith 50 direct ocr := by
  refine ⟨?_, rfl⟩
  by_cases h : totalTextLength direct < 100 * direct.length
  · simp only [extractPagesWith, applyFallbackWith, if_pos h]
    cases ocr with
    | none => exact combineText_mkPageTextsWith thr₁ thr₂ direct
    | some t =>
      by_cases hl : t.length > totalTextLength direct
      · simp [hl]
      · simpa [hl] using combineText_mkPageTextsWith thr₁ thr₂ direct
  · simp only [extractPagesWith, applyFallbackWith, if_neg h]
    exact combineText_mkPageTextsWith thr₁ thr₂ direct

/-- C5: on every document reachable through the ingestion entry point and
the worker's operations, `processingError` is non-null exactly when
`processingStatus` is `failed`. -/
theorem error_iff_failed (d : Document) (h : Reachable d) :
    d.processing_error ≠ none ↔ d.processing_status = "failed" := by
  induction h with
  | uploadPDF id fn fp t => simp [pendingDoc]
  | uploadImage id fn text t now => simp [imageDoc]
  | claim d hd hp ih =>
    have herr : d.processing_error = none := by
      by_contra hne
      have := ih.mp hne
      rw [hp] at this
      exact absurd this (by decide)
    simp [markProcessing, herr]
  | finish d input now hd hp ih =>
    have herr : d.processing_error = none := by
      by_contra hne
      have := ih.mp hne
      rw [hp] at this
      exact absurd this (by decide)
    cases input with
    | fail msg => simp [processPDFRun, markProcessing]
    | ok direct ocr => simp [processPDFRun, markProcessing, herr]

theorem error_iff_failed_witness :
    ((processPDFRun (pendingDoc 1 "f.pdf" "p" 0) (.fail "boom") 5).1.processing_error ≠ none ↔
     (processPDFRun (pendingDoc 1 "f.pdf" "p" 0) (.fail "boom") 5).1.processing_status = "failed") :=
  error_iff_failed _
    (Reachable.finish (pendingDoc 1 "f.pdf" "p" 0) (.fail "boom") 5
      (Reachable.uploadPDF 1 "f.pdf" "p" 0) rfl)

/-- C6: each poll iteration selects at most 5 pending documents ordered by
`uploadedAt` ascending and processes them sequentially in that order; a poll
query error mutates nothing and the iteration still returns. -/
theorem poll_iteration_spec (store : List Document) (e : String)
    (inputs : Document → PDFInput) (now : Nat) (d : Document)
    (ds : List Document) :
    (pollQuery store).length ≤ 5 ∧
    (∀ x ∈ pollQuery store, x.processing_status = "pending") ∧
    (pollQuery store).Pairwise (fun a b => a.uploaded_at ≤ b.uploaded_at) ∧
    pollIteration store (.error e) inputs now = store ∧
    pollIteration store (.ok (d :: ds)) inputs now
      = pollIteration (runOnStore store d (inputs d) now) (.ok ds) inputs now := by
  refine ⟨List.length_take_le _ _, ?_, ?_, rfl, rfl⟩
  · intro x hx
    have hx' : x ∈ (store.filter (fun d => d.processing_status == "pending")).mergeSort
        (fun a b => Nat.ble a.uploaded_at b.uploaded_at) :=
      (List.take_sublist _ _).subset hx
    have := (List.mem_mergeSort.mp hx')
    simpa using (List.mem_filter.mp this).2
  · have hs : ((store.filter (fun d => d.processing_status == "pending")).mergeSort
        (fun a b => Nat.ble a.uploaded_at b.uploaded_at)).Pairwise
        (fun a b => Nat.ble a.uploaded_at b.uploaded_at) := by
      apply List.sorted_mergeSort
      · intro a b c hab hbc
        simp only [Nat.ble_eq] at *
        omega
      · intro a b
        rcases Nat.le_total a.uploaded_at b.uploaded_at with h | h <;>
          simp [Nat.ble_eq, h]
    have hp := List.Pairwise.sublist (List.take_sublist 5 _) hs
    exact hp.imp (fun h => by simpa [Nat.ble_eq] using h)

theorem poll_iteration_spec_witness :
    (pollQuery [pendingDoc 1 "a.pdf" "p" 3]).length ≤ 5 ∧
    (pendingDoc 1 "a.pdf" "p" 3).processing_status = "pending" ∧
    pollIteration [pendingDoc 1 "a.pdf" "p" 3] (.error "down")
      (fun _ => .fail "x") 9 = [pendingDoc 1 "a.pdf" "p" 3] := by
  have hq : pollQuery [pendingDoc 1 "a.pdf" "p" 3] = [pendingDoc 1 "a.pdf" "p" 3] := by
    simp [pollQuery, pendingDoc]
  have h := poll_iteration_spec [pendingDoc 1 "a.pdf" "p" 3] "down"
    (fun _ => .fail "x") 9 (pendingDoc 1 "a.pdf" "p" 3) []
  exact ⟨h.1, h.2.1 (pendingDoc 1 "a.pdf" "p" 3)
    (by rw [hq]; exact List.mem_singleton_self _), h.2.2.2.1⟩

/-- A completed document whose filename contains the query text but whose
extracted text (and product name) do not. -/
def reportDoc : Document :=
  { id := 7
    filename := "Report.pdf"
    job_number := none
    formula_id := none
    product_name := none
    extracted_text := some "abc"
    file_path := none
    page_count := 1
    processing_status := "completed"
    processing_error := none
    uploaded_at := 4
    processed_at := some 5 }

/-- C9 counterexample: `reportDoc` matches the claimed `q` predicate (its
filename contains "report" case-insensitively), yet the Supabase-backed `GET`
with `q = "report"` returns nothing, because its `q` filter consults only
`extracted_text`. -/
theorem get_query_counterexample :
    specQMatches "report" reportDoc = true ∧
    getSupabaseDocs [reportDoc] (some "report") none none none = [] := by
  constructor
  · decide
  · simp only [getSupabaseDocs, List.mergeSort_singleton]
    decide

/-- C9 amended: with `q` given, the Supabase-backed `GET` returns exactly the
documents whose extracted text contains `q` case-insensitively, while the
in-memory `GET` matches extracted text, filename, and product name; both
orderings are newest-first by upload time. -/
theorem get_query_amended (store : List Document) (docs : List MemDoc)
    (q : String) (d : Document) (m : MemDoc) :
    (d ∈ getSupabaseDocs store (some q) none none none ↔
      d ∈ store ∧ ilikeContains d.extracted_text (lowerStr q) = true) ∧
    (getSupabaseDocs store (some q) none none none).Pairwise
      (fun a b => b.uploaded_at ≤ a.uploaded_at) ∧
    (m ∈ getMemDocs docs (some q) none none ↔
      m ∈ docs ∧ memMatchesQ (lowerStr q) m = true) ∧
    (getMemDocs docs (some q) none none).Pairwise
      (fun a b => b.uploadedAt ≤ a.uploadedAt) := by
  refine ⟨?_, ?_, ?_, ?_⟩
  · simp only [getSupabaseDocs]
    simp [List.mem_filter, List.mem_mergeSort]
  · simp only [getSupabaseDocs]
    apply List.Pairwise.filter
    have hs : (store.mergeSort
        (fun a b => Nat.ble b.uploaded_at a.uploaded_at)).Pairwise
        (fun a b => Nat.ble b.uploaded_at a.uploaded_at) := by
      apply List.sorted_mergeSort
      · intro a b c hab hbc
        simp only [Nat.ble_eq] at *
        omega
      · intro a b
        rcases Nat.le_total a.uploaded_at b.uploaded_at with h | h <;>
          simp [Nat.ble_eq, h]
    exact hs.imp (fun h => by simpa [Nat.ble_eq] using h)
  · simp only [getMemDocs]
    simp [List.mem_mergeSort, List.mem_filter]
  · simp only [getMemDocs]
    have hs : ((docs.filter (memMatchesQ (lowerStr q))).mergeSort
        (fun a b => Nat.ble b.uploadedAt a.uploadedAt)).Pairwise
        (fun a b => Nat.ble b.uploadedAt a.uploadedAt) := by
      apply List.sorted_mergeSort
      · intro a b c hab hbc
        simp only [Nat.ble_eq] at *
        omega
      · intro a b
        rcases Nat.le_total a.uploadedAt b.uploadedAt with h | h <;>
          simp [Nat.ble_eq, h]
    exact hs.imp (fun h => by simpa [Nat.ble_eq] using h)

/-- A small in-memory record used to instantiate the amended query theorem. -/
def memDocF : MemDoc :=
  { id := 1
    filename := "f"
    jobNumber := none
    formulaId := none
    productName := none
    extractedText := "abc"
    uploadedAt := 0 }

theorem get_query_amended_witness :
    (reportDoc ∈ getSupabaseDocs [reportDoc] (some "report") none none none ↔
      reportDoc ∈ [reportDoc] ∧
        ilikeContains reportDoc.extracted_text (lowerStr "report") = true) ∧
    (getSupabaseDocs [reportDoc] (some "report") none none none).Pairwise
      (fun a b => b.uploaded_at ≤ a.uploaded_at) ∧
    (memDocF ∈ getMemDocs [memDocF] (some "report") none none ↔
      memDocF ∈ [memDocF] ∧ memMatchesQ (lowerStr "report") memDocF = true) ∧
    (getMemDocs [memDocF] (some "report") none none).Pairwise
      (fun a b => b.uploadedAt ≤ a.uploadedAt) :=
  get_query_amended [reportDoc] [memDocF] "report" reportDoc memDocF

/-! ### C7: the job-number extraction refines the spec's description -/

theorem jsWhitespace_not_digit {c : Char} (h : jsWhitespace c = true) :
    isDigitC c = false := by
  cases hd : isDigitC c
  · rfl
  · exfalso
    simp only [jsWhitespace, Bool.or_eq_true, Bool.and_eq_true,
      decide_eq_true_eq] at h
    simp only [isDigitC, Bool.and_eq_true, decide_eq_true_eq] at hd
    omega

theorem sepClass_not_digit {c : Char} (h : sepClass c = true) :
    isDigitC c = false := by
  simp only [sepClass, Bool.or_eq_true, decide_eq_true_eq] at h
  rcases h with h | h
  · subst h
    decide
  · exact jsWhitespace_not_digit h

theorem ciIs_not_digit {c t : Char} (h : ciIs c t = true)
    (h1 : isDigitC t = false) (h2 : isDigitC t.toUpper = false) :
    isDigitC c = false := by
  simp only [ciIs, Bool.or_eq_true, decide_eq_true_eq] at h
  rcases h with h | h <;> subst h
  · exact h1
  · exact h2

theorem headMem {l : List α} {a : α} (h : l.head? = some a) : a ∈ l := by
  cases l with
  | nil => simp at h
  | cons x xs =>
    simp only [List.head?_cons, Option.some.injEq] at h
    subst h
    exact List.mem_cons_self _ _

/-- On every input, the source matcher and the spec's description of one
match attempt agree: both fail together, or the source match's digit run is
exactly the spec's capture (and is non-empty). -/
theorem jobAt_agree (cs : List Char) :
    (jobMatchAt cs = none ∧ jobCaptureAt cs = none) ∨
    ∃ m rest d, jobMatchAt cs = some (m, rest) ∧ jobCaptureAt cs = some d ∧
      firstDigitRun m = some d ∧ d ≠ "" := by
  match cs with
  | [] => exact Or.inl ⟨rfl, rfl⟩
  | [c1] => exact Or.inl ⟨rfl, rfl⟩
  | [c1, c2] => exact Or.inl ⟨rfl, rfl⟩
  | c1 :: c2 :: c3 :: rest =>
    by_cases hcond : (ciIs c1 'j' && ciIs c2 'o' && ciIs c3 'b') = true
    case neg =>
      exact Or.inl ⟨by simp [jobMatchAt, hcond], by simp [jobCaptureAt, hcond]⟩
    case pos =>
      cases hdw : rest.dropWhile jsWhitespace with
      | nil =>
        exact Or.inl ⟨by simp [jobMatchAt, hcond, hdw],
          by simp [jobCaptureAt, hcond, hdw]⟩
      | cons hash rest2 =>
        by_cases hhash : hash = '#'
        case neg =>
          exact Or.inl ⟨by simp [jobMatchAt, hcond, hdw, hhash],
            by simp [jobCaptureAt, hcond, hdw, hhash]⟩
        case pos =>
          subst hhash
          by_cases hde :
            (((rest2.dropWhile sepClass).takeWhile isDigitC).isEmpty = true)
          case pos =>
            exact Or.inl ⟨by simp [jobMatchAt, hcond, hdw, hde],
              by simp [jobCaptureAt, hcond, hdw, hde]⟩
          case neg =>
            right
            simp only [Bool.and_eq_true] at hcond
            obtain ⟨⟨hj, ho⟩, hb⟩ := hcond
            set ws := rest.takeWhile jsWhitespace with hws
            set sep := rest2.takeWhile sepClass with hsep
            set digits := (rest2.dropWhile sepClass).takeWhile isDigitC
              with hdigits
            have hdigne : digits ≠ [] := by
              simpa using hde
            refine ⟨c1 :: c2 :: c3 :: (ws ++ '#' :: (sep ++ digits)),
              (rest2.dropWhile sepClass).dropWhile isDigitC,
              String.mk digits, ?_, ?_, ?_, ?_⟩
            · simp [jobMatchAt, hdw, hj, ho, hb, hde]
            · simp [jobCaptureAt, hdw, hj, ho, hb, hde]
            · have hsplit : c1 :: c2 :: c3 :: (ws ++ '#' :: (sep ++ digits))
                  = (c1 :: c2 :: c3 :: (ws ++ '#' :: sep)) ++ digits := by
                simp
              have hpre : ∀ a ∈ c1 :: c2 :: c3 :: (ws ++ '#' :: sep),
                  (!isDigitC a) = true := by
                intro a ha
                simp only [List.mem_cons, List.mem_append] at ha
                have hnd : isDigitC a = false := by
                  rcases ha with h | h | h | h | h | h
                  · subst h; exact ciIs_not_digit hj (by decide) (by decide)
                  · subst h; exact ciIs_not_digit ho (by decide) (by decide)
                  · subst h; exact ciIs_not_digit hb (by decide) (by decide)
                  · exact jsWhitespace_not_digit (List.mem_takeWhile_imp h)
                  · subst h; decide
                  · exact sepClass_not_digit (List.mem_takeWhile_imp h)
                simp [hnd]
              have hdrop :
                  (c1 :: c2 :: c3 :: (ws ++ '#' :: (sep ++ digits))).dropWhile
                    (fun c => !isDigitC c) = digits := by
                rw [hsplit, List.dropWhile_append_of_pos hpre]
                cases hdig : digits with
                | nil => simp
                | cons dh dt =>
                  have hdh : isDigitC dh = true := by
                    apply List.mem_takeWhile_imp (l := rest2.dropWhile sepClass)
                    rw [← hdigits, hdig]
                    exact List.mem_cons_self _ _
                  simp [List.dropWhile_cons, hdh]
              simp only [firstDigitRun, hdrop]
              rw [if_neg (by simpa using hdigne)]
              rw [hdigits, List.takeWhile_idem]
            · intro hEq
              rw [String.ext_iff] at hEq
              exact hdigne hEq

/-- The head of the worker's `numbers` list over the global scan equals the
spec-side first capture. -/
theorem scanJob_numbers_head (fuel : Nat) :
    ∀ cs : List Char, cs.length ≤ fuel →
    ((((scanJobAux fuel cs).map firstDigitRun).filterMap id).filter
      (fun s => s ≠ "")).head? = specJobNumber cs := by
  induction fuel with
  | zero =>
    intro cs h
    have : cs = [] := List.length_eq_zero.mp (Nat.le_zero.mp h)
    subst this
    rfl
  | succ fuel ih =>
    intro cs h
    cases cs with
    | nil => rfl
    | cons c cs' =>
      rcases jobAt_agree (c :: cs') with ⟨hm, hc⟩ |
        ⟨m, rest, d, hm, hc, hfd, hne⟩
      · rw [show scanJobAux (fuel + 1) (c :: cs') = scanJobAux fuel cs' by
          simp [scanJobAux, hm]]
        rw [show specJobNumber (c :: cs') = specJobNumber cs' by
          simp [specJobNumber, hc]]
        exact ih cs' (Nat.le_of_succ_le_succ h)
      · rw [show scanJobAux (fuel + 1) (c :: cs')
            = m :: scanJobAux fuel rest by simp [scanJobAux, hm]]
        rw [show specJobNumber (c :: cs') = some d by
          simp [specJobNumber, hc]]
        simp [hfd, hne]

/-- C7: the metadata extractor's `jobNumber` is the numeric capture of the
first (leftmost) match of the case-insensitive pattern
`Job`, optional whitespace, `#`, optional whitespace/colon, one or more
digits — and null when no match exists. -/
theorem jobNumber_is_first_match (t : String) :
    (extractMetadata t).jobNumber = specJobNumber t.data := by
  have h := scanJob_numbers_head t.data.length t.data (Nat.le_refl _)
  show jobNumberOf t = specJobNumber t.data
  rw [jobNumberOf, jobMatchesOf]
  cases hms : scanJobAux t.data.length t.data with
  | nil =>
    rw [hms] at h
    simpa using h
  | cons m ms =>
    rw [hms] at h
    simp only [List.length_cons, gt_iff_lt, Nat.succ_pos, if_true]
    cases hh : ((((m :: ms).map firstDigitRun).filterMap id).filter
        (fun s => s ≠ "")).head? with
    | none => rw [← h, hh]
    | some s =>
      have hs : s ≠ "" := by
        have hmem := headMem hh
        have := List.of_mem_filter hmem
        simpa using this
      rw [← h, hh]
      simp [hs]

/-! ### C8: the product-name extraction -/

/-- C8 counterexample: on `"NameA\n"` the source regex finds nothing (its
separator `[:\s]+` needs at least one whitespace/colon character after
`Name`), while the claim's "optional whitespace/colon" reading captures
`"A"`. -/
theorem productName_counterexample :
    productNameOf "NameA\n" = none ∧ claimProductName "NameA\n" = some "A" := by
  constructor <;> rfl

theorem findSome?_option_map (l : List α) (g : α → Option β) (f : β → γ) :
    (l.findSome? fun i => (g i).map f) = (l.findSome? g).map f := by
  induction l with
  | nil => rfl
  | cons x xs ih =>
    cases hg : g x <;> simp [List.findSome?_cons, hg, ih]

theorem lazyCapture_append (cs : List Char) :
    ∀ acc, lazyCapture acc cs = (lazyCapture [] cs).map (fun x => acc ++ x) := by
  induction cs with
  | nil => intro acc; rfl
  | cons c rest ih =>
    intro acc
    by_cases h1 : inNameClass c = true
    · by_cases h2 : termAt rest = true
      · simp [lazyCapture, h1, h2]
      · simp only [lazyCapture, h1, if_true, h2, if_false]
        rw [ih (acc ++ [c]), ih ([] ++ [c])]
        simp [Option.map_map, Function.comp_def, List.append_assoc]
    · simp [lazyCapture, h1]

theorem lazyCapture_eq_specLazy (cs : List Char) :
    lazyCapture [] cs = specLazy cs := by
  induction cs with
  | nil => rfl
  | cons c rest ih =>
    rw [specLazy, List.length_cons, List.range_succ_eq_map,
      List.findSome?_cons]
    by_cases h1 : inNameClass c = true
    · by_cases h2 : termAt rest = true
      · simp [lazyCapture, h1, h2]
      · have h0 : (if ((c :: rest).take (0 + 1)).all inNameClass
              && termAt ((c :: rest).drop (0 + 1)) then
            some ((c :: rest).take (0 + 1)) else none) = none := by
          simp [h1, h2]
        rw [h0]
        rw [List.findSome?_map]
        have hfun : ((fun i =>
            if ((c :: rest).take (i + 1)).all inNameClass
                && termAt ((c :: rest).drop (i + 1)) then
              some ((c :: rest).take (i + 1)) else none) ∘ Nat.succ)
            = (fun i => (if (rest.take (i + 1)).all inNameClass
                && termAt (rest.drop (i + 1)) then
              some (rest.take (i + 1)) else none).map (fun x => c :: x)) := by
          funext i
          simp only [Function.comp_apply, List.take_succ_cons, List.all_cons,
            List.drop_succ_cons, h1, Bool.true_and]
          by_cases hcond : ((rest.take (i + 1)).all inNameClass
              && termAt (rest.drop (i + 1))) = true
          · simp [hcond]
          · simp [hcond]
        rw [hfun, findSome?_option_map]
        rw [show (List.range rest.length).findSome? (fun i =>
            if (rest.take (i + 1)).all inNameClass
                && termAt (rest.drop (i + 1)) then
              some (rest.take (i + 1)) else none) = specLazy rest from rfl]
        rw [← ih]
        have hstep : lazyCapture [] (c :: rest) = lazyCapture [c] rest := by
          simp [lazyCapture, h1, h2]
        rw [hstep, lazyCapture_append rest [c]]
        rfl
    · have h0 : (if ((c :: rest).take (0 + 1)).all inNameClass
            && termAt ((c :: rest).drop (0 + 1)) then
          some ((c :: rest).take (0 + 1)) else none) = none := by
        simp [h1]
      rw [h0]
      rw [List.findSome?_map]
      have hall : ∀ x ∈ List.range rest.length, ((fun i =>
          if ((c :: rest).take (i + 1)).all inNameClass
              && termAt ((c :: rest).drop (i + 1)) then
            some ((c :: rest).take (i + 1)) else none) ∘ Nat.succ) x = none := by
        intro x _
        simp [h1]
      rw [List.findSome?_eq_none.mpr hall]
      simp [lazyCapture, h1]

theorem sepTryFrom_eq_range (cs : List Char) :
    ∀ n, sepTryFrom cs n
      = (List.range n).findSome? (fun i => lazyCapture [] (cs.drop (n - i))) := by
  intro n
  induction n with
  | zero => rfl
  | succ n ih =>
    rw [List.range_succ_eq_map, List.findSome?_cons, List.findSome?_map]
    have hfun : ((fun i => lazyCapture [] (cs.drop (n + 1 - i))) ∘ Nat.succ)
        = (fun i => lazyCapture [] (cs.drop (n - i))) := by
      funext i
      simp [Nat.succ_sub_succ]
    rw [hfun, ← ih]
    simp only [Nat.sub_zero]
    rw [sepTryFrom]
    cases hl : lazyCapture [] (cs.drop (n + 1)) <;> rfl

theorem nameTail_eq (cs : List Char) :
    sepTryFrom cs (cs.takeWhile sepClass).length = amendedNameTail cs := by
  rw [amendedNameTail, sepTryFrom_eq_range]
  have hfun : (fun i => lazyCapture []
      (cs.drop ((cs.takeWhile sepClass).length - i)))
      = (fun i => specLazy (cs.drop ((cs.takeWhile sepClass).length - i))) := by
    funext i
    rw [lazyCapture_eq_specLazy]
  rw [hfun]

theorem nameMatchAt_eq_amended (cs : List Char) :
    nameMatchAt cs = amendedNameAt cs := by
  match cs with
  | [] => rfl
  | [c1] => rfl
  | [c1, c2] => rfl
  | [c1, c2, c3] => rfl
  | c1 :: c2 :: c3 :: c4 :: rest =>
    by_cases h : (ciIs c1 'n' && ciIs c2 'a' && ciIs c3 'm' && ciIs c4 'e') = true
    · simp only [nameMatchAt, amendedNameAt, h, if_true]
      exact nameTail_eq rest
    · simp [nameMatchAt, amendedNameAt, h]

theorem findNameCapture_eq_amended (cs : List Char) :
    findNameCapture cs = amendedFindName cs := by
  induction cs with
  | nil => rfl
  | cons c rest ih =>
    rw [findNameCapture, amendedFindName, nameMatchAt_eq_amended]
    cases amendedNameAt (c :: rest) <;> simp [ih]

/-- C8 (amended): the metadata extractor's `productName` is the trimmed
capture of the first case-insensitive match of `Name`, followed by *one or
more* whitespace/colon characters, then a lazily-captured run of letters,
digits, `%`, and whitespace terminated by a newline or the literal word
`Gallons` or `Pounds`; null when no such match exists. -/
theorem productName_amended (t : String) :
    (extractMetadata t).productName = amendedProductName t := by
  show productNameOf t = amendedProductName t
  rw [productNameOf, amendedProductName, findNameCapture_eq_amended]

end PdfScanner
